import Mathlib

/-
  Verification of the Markov regime-forecasting core.

  Shallow embedding of the TypeScript sources:
  * `Markov`       — src/src/lib/markov.ts (the feature-complete second variant:
                     `buildMarkovWeighted` with order-k context and Dirichlet prior,
                     `semiMarkovAdjustFirstRow`, `matPow`, `multiStepForecast`)
  * `Part6`        — src/unnamed/part_006 (`survivalProb`, `buildOrder2Counts`,
                     `rowFromOrder2`)
  * `Compute`      — src/src/lib/compute.ts (`scoreTransitionModel` and the
                     half-life model-selection loop of `computeAll`)
  * `Conditioning` — src/src/lib/models/conditioning.ts (`defaultLogitModel`,
                     `conditionedRow`)
  * `Regime`       — src/src/lib/regimeModel.ts (`initCentroids`, `kMeans`)

  JavaScript numbers are modelled as exact reals (ℝ) where the code uses
  `Math.exp`/`Math.log`, and as rationals (ℚ) where all arithmetic is
  field arithmetic, so that concrete runs can be evaluated by `decide`.
  NaN has no counterpart in this embedding; the places where the code can
  produce NaN (0/0) are modelled by `Option` or are proved unreachable.
  The state alphabet is modelled by the four canonical states; the code's
  guards for unknown state strings (`IDX[s] === undefined`) are therefore
  always passed.
-/

inductive State : Type
  | D | R | B | U
  deriving DecidableEq, Repr

/-- The canonical index of a state, `IDX` in src/src/types/market.ts
(`STATES = ["D","R","B","U"]`). -/
def Idx : State → Fin 4
  | State.D => 0
  | State.R => 1
  | State.B => 2
  | State.U => 3

theorem Idx_injective : Function.Injective Idx := by
  intro a b h
  cases a <;> cases b <;> first | rfl | exact absurd h (by decide)

namespace Markov

/-- JS `Math.max(...xs)` for a nonempty spread; the `[]` case returns a junk
value (JS would give `-Infinity`) and is never reached in this development. -/
noncomputable def listMax : List ℝ → ℝ
  | [] => 0
  | x :: xs => xs.foldl max x

/-- `decayWeights` of markov.ts: one exponential recency weight per transition,
`weights[i] = exp(-lambda * (length-1-i))` normalized by the maximum. -/
noncomputable def decayWeights (length : ℕ) (halfLife : ℝ) : List ℝ :=
  if halfLife ≤ 0 then List.replicate length 1
  else
    let lam : ℝ := Real.log 2 / halfLife
    let ws : List ℝ :=
      (List.range length).map fun (i : ℕ) => Real.exp (-(lam * ((length : ℝ) - 1 - (i : ℝ))))
    ws.map fun w => w / listMax ws

/-- `window && states.length > window ? states.slice(-window) : states.slice()`. -/
def buildFiltered (states : List State) (window : ℕ) : List State :=
  if window ≠ 0 ∧ window < states.length then states.drop (states.length - window)
  else states

/-- The list of observed transitions `(fromStates[i], toStates[i])`:
`fromStates = filtered.slice(0,-1)` and `toStates = filtered.slice(1)`
pair consecutive elements, i.e. `filtered.zip filtered.tail`. -/
def transOf (filtered : List State) : List (State × State) :=
  filtered.zip filtered.tail

/-- Length of the agreeing prefix of two context slices, stopping at the first
mismatch (the `for`/`break` loop computing `matches`). -/
def matchLen : List State → List State → ℕ
  | a :: as, b :: bs => if a = b then 1 + matchLen as bs else 0
  | _, _ => 0

/-- `filtered.slice(filtered.length - 1 - contextDepth, filtered.length - 1)`,
including the JS semantics of a negative start index (clamped to
`max(length + start, 0)`). -/
def latestContextOf (filtered : List State) (d : ℕ) : List State :=
  let len := filtered.length
  let start : ℤ := (len : ℤ) - 1 - (d : ℤ)
  let s : ℕ := if start < 0 then (max ((len : ℤ) + start) 0).toNat else start.toNat
  (filtered.drop s).take (len - 1 - s)

/-- The context boost applied to transition `i`'s weight when context order
`k > 1` (contextDepth `d = k-1`): full match multiplies by `1.5 + 0.5*d`,
a partial prefix match by `1 + matches/(2d)`, otherwise 1; transitions whose
context window starts before the sequence (`contextStart < 0`) are unchanged. -/
noncomputable def contextFactor (filtered : List State) (d : ℕ) (i : ℕ) : ℝ :=
  if d = 0 then 1
  else if i < d then 1
  else
    let slice := (filtered.drop (i - d)).take d
    let ctxMatches := matchLen slice (latestContextOf filtered d)
    if ctxMatches = d then 1.5 + 0.5 * (d : ℝ)
    else if 0 < ctxMatches then 1 + (ctxMatches : ℝ) / (2 * (d : ℝ))
    else 1

/-- The weight accumulated into `counts` for transition `i`: the recency weight
times the context factor. -/
noncomputable def transWeight (filtered : List State) (halfLife : ℝ) (d : ℕ) (i : ℕ) : ℝ :=
  (decayWeights (transOf filtered).length halfLife).getD i 0 * contextFactor filtered d i

/-- The weighted transition-count matrix: `counts[from][to] += weight` over all
observed transitions. -/
noncomputable def countsOf (filtered : List State) (halfLife : ℝ) (d : ℕ) :
    Fin 4 → Fin 4 → ℝ := fun a b =>
  ∑ i ∈ Finset.range (transOf filtered).length,
    if Idx ((transOf filtered).getD i (State.D, State.D)).1 = a ∧
       Idx ((transOf filtered).getD i (State.D, State.D)).2 = b
    then transWeight filtered halfLife d i else 0

/-- Occurrences of each state in the window (`stateFreq`). -/
def stateFreqOf (filtered : List State) : Fin 4 → ℕ := fun a =>
  (filtered.filter fun s => Idx s = a).length

/-- The stationary frequency distribution over the window (`baseDistribution`),
uniform when the window is empty. -/
noncomputable def baseDistributionOf (filtered : List State) : Fin 4 → ℝ :=
  let total := ∑ a, stateFreqOf filtered a
  if total = 0 then fun _ => 1/4
  else fun a => (stateFreqOf filtered a : ℝ) / (total : ℝ)

/-- The per-cell prior `baseDistribution * dirichletStrength + smoothing`. -/
noncomputable def priorOf (filtered : List State) (smoothing dirichlet : ℝ) : Fin 4 → ℝ :=
  fun b => baseDistributionOf filtered b * dirichlet + smoothing

/-- A row of counts with the prior added (`withPrior`). -/
noncomputable def withPriorOf (filtered : List State) (smoothing halfLife dirichlet : ℝ)
    (d : ℕ) : Fin 4 → Fin 4 → ℝ := fun a b =>
  countsOf filtered halfLife d a b + priorOf filtered smoothing dirichlet b

/-- The counts-plus-prior total of a row, the normalizer `sum`. -/
noncomputable def rowTotalOf (filtered : List State) (smoothing halfLife dirichlet : ℝ)
    (d : ℕ) (a : Fin 4) : ℝ :=
  ∑ b, withPriorOf filtered smoothing halfLife dirichlet d a b

/-- Row normalization: each row of counts-plus-prior divided by its total,
falling back to the uniform distribution when the total is zero. -/
noncomputable def probsOf (filtered : List State) (smoothing halfLife dirichlet : ℝ)
    (d : ℕ) : Fin 4 → Fin 4 → ℝ := fun a b =>
  if rowTotalOf filtered smoothing halfLife dirichlet d a = 0 then 1/4
  else withPriorOf filtered smoothing halfLife dirichlet d a b /
    rowTotalOf filtered smoothing halfLife dirichlet d a

structure MarkovOptions where
  window : ℕ
  smoothing : ℝ
  halfLife : ℝ
  order : ℕ
  dirichletStrength : ℝ

structure MarkovBuildResult where
  counts : Fin 4 → Fin 4 → ℝ
  probs : Fin 4 → Fin 4 → ℝ
  weights : List ℝ
  contextDepth : ℕ
  baseDistribution : Fin 4 → ℝ
  options : MarkovOptions

/-- `buildMarkovWeighted` of markov.ts (the options-record variant): windowed,
recency- and context-weighted transition counts, normalized rows with a
Dirichlet-plus-flat prior; a degenerate window (< 2 usable states) yields the
uniform matrix, zero counts and an empty weight list. -/
noncomputable def buildMarkovWeighted (states : List State) (window : ℕ)
    (smoothing halfLife dirichletStrength : ℝ) (order : ℕ) : MarkovBuildResult :=
  let filtered := buildFiltered states window
  if filtered.length < 2 then
    { counts := fun _ _ => 0
      probs := fun _ _ => 1/4
      weights := []
      contextDepth := order - 1
      baseDistribution := fun _ => 1/4
      options := ⟨window, smoothing, halfLife, order, dirichletStrength⟩ }
  else
    let orderDepth := max 1 order
    let d := orderDepth - 1
    { counts := countsOf filtered halfLife d
      probs := probsOf filtered smoothing halfLife dirichletStrength d
      weights := decayWeights (transOf filtered).length halfLife
      contextDepth := d
      baseDistribution := baseDistributionOf filtered
      options := ⟨window, smoothing, halfLife, orderDepth, dirichletStrength⟩ }

end Markov

namespace Markov

theorem le_foldl_max (l : List ℝ) (a : ℝ) : a ≤ l.foldl max a := by
  induction l generalizing a with
  | nil => simp
  | cons x xs ih => exact le_trans (le_max_left a x) (ih (max a x))

theorem mem_le_foldl_max (l : List ℝ) (a x : ℝ) (hx : x ∈ l) : x ≤ l.foldl max a := by
  induction l generalizing a with
  | nil => cases hx
  | cons y ys ih =>
    rcases List.mem_cons.mp hx with h | h
    · subst h; exact le_trans (le_max_right a x) (le_foldl_max ys (max a x))
    · exact ih (max a y) h

theorem listMax_ge (l : List ℝ) (x : ℝ) (hx : x ∈ l) : x ≤ listMax l := by
  cases l with
  | nil => cases hx
  | cons y ys =>
    simp only [listMax]
    rcases List.mem_cons.mp hx with h | h
    · subst h; exact le_foldl_max ys x
    · exact mem_le_foldl_max ys y x h

theorem decayWeights_length (n : ℕ) (hl : ℝ) : (decayWeights n hl).length = n := by
  unfold decayWeights
  split
  · exact List.length_replicate n 1
  · rw [List.length_map, List.length_map, List.length_range]

theorem decayWeights_pos (n : ℕ) (hl : ℝ) : ∀ w ∈ decayWeights n hl, 0 < w := by
  intro w hw
  unfold decayWeights at hw
  split at hw
  · rw [List.eq_of_mem_replicate hw]; norm_num
  · simp only [List.mem_map] at hw
    obtain ⟨v, ⟨i, hi, rfl⟩, rfl⟩ := hw
    exact div_pos (Real.exp_pos _)
      (lt_of_lt_of_le (Real.exp_pos _)
        (listMax_ge _ _ (List.mem_map.mpr ⟨i, hi, rfl⟩)))

end Markov

namespace Markov

theorem contextFactor_pos (filtered : List State) (d i : ℕ) :
    0 < contextFactor filtered d i := by
  simp only [contextFactor]
  split_ifs <;> positivity

theorem transWeight_nonneg (filtered : List State) (hl : ℝ) (d i : ℕ) :
    0 ≤ transWeight filtered hl d i := by
  unfold transWeight
  apply mul_nonneg _ (le_of_lt (contextFactor_pos _ _ _))
  by_cases h : i < (decayWeights (transOf filtered).length hl).length
  · have hmem : (decayWeights (transOf filtered).length hl).getD i 0 ∈
        decayWeights (transOf filtered).length hl := by
      rw [List.getD_eq_getElem _ _ h]
      exact List.getElem_mem h
    exact le_of_lt (decayWeights_pos _ _ _ hmem)
  · rw [List.getD_eq_default _ _ (le_of_not_lt h)]

theorem transWeight_pos (filtered : List State) (hl : ℝ) (d i : ℕ)
    (h : i < (transOf filtered).length) : 0 < transWeight filtered hl d i := by
  unfold transWeight
  apply mul_pos _ (contextFactor_pos _ _ _)
  have h' : i < (decayWeights (transOf filtered).length hl).length := by
    rwa [decayWeights_length]
  have hmem : (decayWeights (transOf filtered).length hl).getD i 0 ∈
      decayWeights (transOf filtered).length hl := by
    rw [List.getD_eq_getElem _ _ h']
    exact List.getElem_mem h'
  exact decayWeights_pos _ _ _ hmem

theorem countsOf_nonneg (filtered : List State) (hl : ℝ) (d : ℕ) (a b : Fin 4) :
    0 ≤ countsOf filtered hl d a b := by
  apply Finset.sum_nonneg
  intro i _
  split
  · exact transWeight_nonneg _ _ _ _
  · exact le_refl 0

theorem baseDistributionOf_nonneg (filtered : List State) (b : Fin 4) :
    0 ≤ baseDistributionOf filtered b := by
  simp only [baseDistributionOf]
  split
  · norm_num
  · positivity

theorem priorOf_nonneg (filtered : List State) (smoothing dirichlet : ℝ)
    (hs : 0 ≤ smoothing) (hd : 0 ≤ dirichlet) (b : Fin 4) :
    0 ≤ priorOf filtered smoothing dirichlet b :=
  add_nonneg (mul_nonneg (baseDistributionOf_nonneg _ _) hd) hs

theorem withPriorOf_nonneg (filtered : List State) (smoothing halfLife dirichlet : ℝ)
    (d : ℕ) (hs : 0 ≤ smoothing) (hd : 0 ≤ dirichlet) (a b : Fin 4) :
    0 ≤ withPriorOf filtered smoothing halfLife dirichlet d a b :=
  add_nonneg (countsOf_nonneg _ _ _ _ _) (priorOf_nonneg _ _ _ hs hd _)

theorem rowTotalOf_nonneg (filtered : List State) (smoothing halfLife dirichlet : ℝ)
    (d : ℕ) (hs : 0 ≤ smoothing) (hd : 0 ≤ dirichlet) (a : Fin 4) :
    0 ≤ rowTotalOf filtered smoothing halfLife dirichlet d a :=
  Finset.sum_nonneg fun b _ => withPriorOf_nonneg _ _ _ _ _ hs hd a b

theorem probsOf_row_props (filtered : List State) (smoothing halfLife dirichlet : ℝ)
    (d : ℕ) (hs : 0 ≤ smoothing) (hd : 0 ≤ dirichlet) (a : Fin 4) :
    (∑ b, probsOf filtered smoothing halfLife dirichlet d a b) = 1 ∧
    (∀ b, 0 ≤ probsOf filtered smoothing halfLife dirichlet d a b ∧
      probsOf filtered smoothing halfLife dirichlet d a b ≤ 1) ∧
    (rowTotalOf filtered smoothing halfLife dirichlet d a = 0 →
      ∀ b, probsOf filtered smoothing halfLife dirichlet d a b = 1/4) := by
  by_cases h : rowTotalOf filtered smoothing halfLife dirichlet d a = 0
  · refine ⟨?_, fun b => ?_, fun _ b => ?_⟩
    · simp [probsOf, h, Finset.sum_const, Finset.card_univ]
    · simp only [probsOf, if_pos h]
      norm_num
    · simp only [probsOf, if_pos h]
  · have hpos : 0 < rowTotalOf filtered smoothing halfLife dirichlet d a :=
      lt_of_le_of_ne (rowTotalOf_nonneg _ _ _ _ _ hs hd a) (Ne.symm h)
    refine ⟨?_, fun b => ⟨?_, ?_⟩, fun hzero => absurd hzero h⟩
    · simp only [probsOf, if_neg h]
      rw [← Finset.sum_div]
      exact div_self (ne_of_gt hpos)
    · simp only [probsOf, if_neg h]
      exact div_nonneg (withPriorOf_nonneg _ _ _ _ _ hs hd a b) (le_of_lt hpos)
    · simp only [probsOf, if_neg h]
      rw [div_le_one hpos]
      exact Finset.single_le_sum
        (fun c _ => withPriorOf_nonneg _ _ _ _ _ hs hd a c) (Finset.mem_univ b)

end Markov

namespace Markov

theorem buildMarkov_probs_degenerate (states : List State) (window : ℕ)
    (smoothing halfLife dirichletStrength : ℝ) (order : ℕ)
    (h : (buildFiltered states window).length < 2) :
    buildMarkovWeighted states window smoothing halfLife dirichletStrength order =
      { counts := fun _ _ => 0
        probs := fun _ _ => 1/4
        weights := []
        contextDepth := order - 1
        baseDistribution := fun _ => 1/4
        options := ⟨window, smoothing, halfLife, order, dirichletStrength⟩ } := by
  simp [buildMarkovWeighted, h]

theorem buildMarkov_probs_main (states : List State) (window : ℕ)
    (smoothing halfLife dirichletStrength : ℝ) (order : ℕ)
    (h : ¬ (buildFiltered states window).length < 2) :
    (buildMarkovWeighted states window smoothing halfLife dirichletStrength order).probs =
      probsOf (buildFiltered states window) smoothing halfLife dirichletStrength
        (max 1 order - 1) := by
  simp [buildMarkovWeighted, h]

end Markov

/-- C1: for every state sequence of length at least 2 and every valid
configuration (window > 0, smoothing ≥ 0, dirichletStrength ≥ 0, order ≥ 1),
every row of the probability matrix returned by `buildMarkovWeighted` sums to 1
within 1e-9 (in this exact-real embedding the sum is exactly 1) and every entry
lies in [0,1]; a row whose counts-plus-prior total is zero is the uniform
distribution (1/4 in each entry). -/
theorem markov_row_normalization (states : List State) (window : ℕ)
    (smoothing halfLife dirichletStrength : ℝ) (order : ℕ)
    (hw : 0 < window) (hs : 0 ≤ smoothing) (hd : 0 ≤ dirichletStrength)
    (ho : 1 ≤ order) (hlen : 2 ≤ states.length) :
    ∀ a : Fin 4,
      |(∑ b, (Markov.buildMarkovWeighted states window smoothing halfLife
          dirichletStrength order).probs a b) - 1| ≤ 1e-9 ∧
      (∀ b, 0 ≤ (Markov.buildMarkovWeighted states window smoothing halfLife
          dirichletStrength order).probs a b ∧
        (Markov.buildMarkovWeighted states window smoothing halfLife
          dirichletStrength order).probs a b ≤ 1) ∧
      (Markov.rowTotalOf (Markov.buildFiltered states window) smoothing halfLife
          dirichletStrength (max 1 order - 1) a = 0 →
        ∀ b, (Markov.buildMarkovWeighted states window smoothing halfLife
          dirichletStrength order).probs a b = 1/4) := by
  intro a
  by_cases hdeg : (Markov.buildFiltered states window).length < 2
  · rw [Markov.buildMarkov_probs_degenerate states window smoothing halfLife
      dirichletStrength order hdeg]
    refine ⟨?_, fun b => ?_, fun _ b => rfl⟩
    · simp [Finset.sum_const, Finset.card_univ]
      norm_num
    · norm_num
  · rw [Markov.buildMarkov_probs_main states window smoothing halfLife
      dirichletStrength order hdeg]
    obtain ⟨hsum, hbounds, huni⟩ := Markov.probsOf_row_props
      (Markov.buildFiltered states window) smoothing halfLife dirichletStrength
      (max 1 order - 1) hs hd a
    exact ⟨by rw [hsum]; norm_num, hbounds, huni⟩

/-- Witness for C1 at the concrete input `[D, U]` with window 5, smoothing 0,
half-life 0, Dirichlet strength 0, order 1. -/
theorem markov_row_normalization_witness :
    0 < 5 ∧ (0:ℝ) ≤ 0 ∧ (0:ℝ) ≤ 0 ∧ (1:ℕ) ≤ 1 ∧
    2 ≤ ([State.D, State.U] : List State).length ∧
    (∀ a : Fin 4,
      |(∑ b, (Markov.buildMarkovWeighted [State.D, State.U] 5 0 0 0 1).probs a b) - 1|
        ≤ 1e-9 ∧
      (∀ b, 0 ≤ (Markov.buildMarkovWeighted [State.D, State.U] 5 0 0 0 1).probs a b ∧
        (Markov.buildMarkovWeighted [State.D, State.U] 5 0 0 0 1).probs a b ≤ 1) ∧
      (Markov.rowTotalOf (Markov.buildFiltered [State.D, State.U] 5) 0 0 0
          (max 1 1 - 1) a = 0 →
        ∀ b, (Markov.buildMarkovWeighted [State.D, State.U] 5 0 0 0 1).probs a b = 1/4)) :=
  ⟨by norm_num, le_refl 0, le_refl 0, le_refl 1, by simp,
    markov_row_normalization [State.D, State.U] 5 0 0 0 1
      (by norm_num) (le_refl 0) (le_refl 0) (le_refl 1) (by simp)⟩

/-- C8: for every input state sequence with fewer than 2 usable states after
windowing, `buildMarkovWeighted` returns the uniform matrix (every entry 1/4),
the zero counts matrix, and an empty weight list (total function, no
exception). -/
theorem markov_degenerate_uniform (states : List State) (window : ℕ)
    (smoothing halfLife dirichletStrength : ℝ) (order : ℕ)
    (h : (Markov.buildFiltered states window).length < 2) :
    (∀ a b, (Markov.buildMarkovWeighted states window smoothing halfLife
        dirichletStrength order).probs a b = 1/4) ∧
    (∀ a b, (Markov.buildMarkovWeighted states window smoothing halfLife
        dirichletStrength order).counts a b = 0) ∧
    (Markov.buildMarkovWeighted states window smoothing halfLife
        dirichletStrength order).weights = [] := by
  rw [Markov.buildMarkov_probs_degenerate states window smoothing halfLife
    dirichletStrength order h]
  exact ⟨fun _ _ => rfl, fun _ _ => rfl, rfl⟩

/-- Witness for C8 at the concrete input `[U]` (a single usable state) with
window 5. -/
theorem markov_degenerate_uniform_witness :
    (Markov.buildFiltered [State.U] 5).length < 2 ∧
    ((∀ a b, (Markov.buildMarkovWeighted [State.U] 5 0 0 0 1).probs a b = 1/4) ∧
    (∀ a b, (Markov.buildMarkovWeighted [State.U] 5 0 0 0 1).counts a b = 0) ∧
    (Markov.buildMarkovWeighted [State.U] 5 0 0 0 1).weights = []) :=
  ⟨by simp [Markov.buildFiltered],
    markov_degenerate_uniform [State.U] 5 0 0 0 1 (by simp [Markov.buildFiltered])⟩

namespace Markov

theorem priorOf_zero (filtered : List State) (b : Fin 4) :
    priorOf filtered 0 0 b = 0 := by
  simp [priorOf]

theorem countsOf_row_sum (filtered : List State) (hl : ℝ) (d : ℕ) (a : Fin 4) :
    (∑ b, countsOf filtered hl d a b) =
      ∑ i ∈ Finset.range (transOf filtered).length,
        if Idx ((transOf filtered).getD i (State.D, State.D)).1 = a
        then transWeight filtered hl d i else 0 := by
  unfold countsOf
  rw [Finset.sum_comm]
  apply Finset.sum_congr rfl
  intro i _
  by_cases hP : Idx ((transOf filtered).getD i (State.D, State.D)).1 = a
  · simp only [hP, true_and]
    rw [Finset.sum_ite_eq]
    simp
  · rw [if_neg hP]
    apply Finset.sum_eq_zero
    intro b _
    rw [if_neg]
    intro hand
    exact hP hand.1

theorem countsOf_eq_zero_of_not_mem (filtered : List State) (hl : ℝ) (d : ℕ)
    (a b : Fin 4) (h : ∀ p ∈ transOf filtered, ¬(Idx p.1 = a ∧ Idx p.2 = b)) :
    countsOf filtered hl d a b = 0 := by
  unfold countsOf
  apply Finset.sum_eq_zero
  intro i hi
  rw [if_neg]
  apply h
  rw [List.getD_eq_getElem _ _ (Finset.mem_range.mp hi)]
  exact List.getElem_mem _

theorem countsOf_row_pos (filtered : List State) (hl : ℝ) (d : ℕ) (a : Fin 4)
    (h : ∃ p ∈ transOf filtered, Idx p.1 = a) :
    0 < ∑ b, countsOf filtered hl d a b := by
  rw [countsOf_row_sum]
  obtain ⟨p, hp, hpa⟩ := h
  obtain ⟨i, hilen, hip⟩ := List.mem_iff_getElem.mp hp
  apply Finset.sum_pos'
  · intro j _
    split
    · exact transWeight_nonneg _ _ _ _
    · exact le_refl 0
  · refine ⟨i, Finset.mem_range.mpr hilen, ?_⟩
    rw [List.getD_eq_getElem _ _ hilen, hip, if_pos hpa]
    exact transWeight_pos _ _ _ _ hilen

end Markov

/-- C4: with `dirichletStrength = 0` and `smoothing = 0`, for every state
sequence with no Down-to-Up transition but at least one transition out of Down,
the Down row's Up-probability of `buildMarkovWeighted` (at the default window,
`states.length`) is exactly 0 (in particular not NaN: the normalizer is proved
nonzero, so the division 0/0 never occurs). -/
theorem markov_zero_downup (states : List State) (halfLife : ℝ) (order : ℕ)
    (ho : 1 ≤ order)
    (hnoDU : (State.D, State.U) ∉ states.zip states.tail)
    (hout : ∃ b, (State.D, b) ∈ states.zip states.tail) :
    (Markov.buildMarkovWeighted states states.length 0 halfLife 0 order).probs
      (Idx State.D) (Idx State.U) = 0 := by
  obtain ⟨b0, hb0⟩ := hout
  have hfil : Markov.buildFiltered states states.length = states := by
    unfold Markov.buildFiltered
    rw [if_neg]
    simp
  have hlen2 : 2 ≤ states.length := by
    have hzlen : 0 < (states.zip states.tail).length :=
      List.length_pos.mpr (List.ne_nil_of_mem hb0)
    rw [List.length_zip, List.length_tail] at hzlen
    omega
  have hndeg : ¬ (Markov.buildFiltered states states.length).length < 2 := by
    rw [hfil]; omega
  rw [Markov.buildMarkov_probs_main _ _ _ _ _ _ hndeg, hfil]
  set d := max 1 order - 1 with hd
  have htrans : Markov.transOf states = states.zip states.tail := rfl
  have hrt : Markov.rowTotalOf states 0 halfLife 0 d (Idx State.D) =
      ∑ b, Markov.countsOf states halfLife d (Idx State.D) b := by
    unfold Markov.rowTotalOf Markov.withPriorOf
    simp [Markov.priorOf_zero]
  have hpos : 0 < ∑ b, Markov.countsOf states halfLife d (Idx State.D) b := by
    apply Markov.countsOf_row_pos
    exact ⟨(State.D, b0), by rw [htrans]; exact hb0, rfl⟩
  have hne : Markov.rowTotalOf states 0 halfLife 0 d (Idx State.D) ≠ 0 := by
    rw [hrt]; exact ne_of_gt hpos
  have hc0 : Markov.countsOf states halfLife d (Idx State.D) (Idx State.U) = 0 := by
    apply Markov.countsOf_eq_zero_of_not_mem
    intro p hp ⟨h1, h2⟩
    apply hnoDU
    have : p = (State.D, State.U) := by
      have e1 : p.1 = State.D := Idx_injective h1
      have e2 : p.2 = State.U := Idx_injective h2
      cases p; simp_all
    rw [← this]
    rw [htrans] at hp
    exact hp
  unfold Markov.probsOf
  rw [if_neg hne]
  unfold Markov.withPriorOf
  rw [hc0, Markov.priorOf_zero]
  simp

/-- Witness for C4 at the concrete sequence `[D, B, U, U]` (one transition out
of Down, none from Down to Up), half-life 10, order 1. -/
theorem markov_zero_downup_witness :
    (1:ℕ) ≤ 1 ∧
    (State.D, State.U) ∉ ([State.D, State.B, State.U, State.U] : List State).zip
      [State.D, State.B, State.U, State.U].tail ∧
    (∃ b, (State.D, b) ∈ ([State.D, State.B, State.U, State.U] : List State).zip
      [State.D, State.B, State.U, State.U].tail) ∧
    (Markov.buildMarkovWeighted [State.D, State.B, State.U, State.U]
      ([State.D, State.B, State.U, State.U] : List State).length 0 10 0 1).probs
      (Idx State.D) (Idx State.U) = 0 :=
  ⟨le_refl 1, by decide, ⟨State.B, by decide⟩,
    markov_zero_downup [State.D, State.B, State.U, State.U] 10 1
      (le_refl 1) (by decide) ⟨State.B, by decide⟩⟩

namespace Markov

/-- Helper for `extractRuns`: the streak-scanning loop. -/
def extractRunsGo (s : State) : List State → ℕ → List ℕ
  | [], streak => if 0 < streak then [streak] else []
  | x :: xs, streak =>
      if x = s then extractRunsGo s xs (streak + 1)
      else if 0 < streak then streak :: extractRunsGo s xs 0
      else extractRunsGo s xs 0

/-- `extractRuns` of markov.ts: the historical run lengths of state `s`
(including a trailing open run). -/
def extractRuns (states : List State) (s : State) : List ℕ :=
  extractRunsGo s states 0

/-- The current run length: 1 plus the number of consecutive occurrences of
`s` at the end of `states.dropLast` (the backwards `for` loop starting at
`states.length - 2`). -/
def currentRunOf (states : List State) (s : State) : ℕ :=
  1 + (states.dropLast.reverse.takeWhile fun x => x = s).length

/-- `survivors`: historical runs at least as long as the current run. -/
def survivorsOf (runs : List ℕ) (r : ℕ) : ℕ :=
  (runs.filter fun l => r ≤ l).length

/-- `exits`: historical runs of exactly the current length. -/
def exitsOf (runs : List ℕ) (r : ℕ) : ℕ :=
  (runs.filter fun l => l = r).length

/-- `hazard = survivors ? exits / survivors : 0`. -/
noncomputable def hazardOf (runs : List ℕ) (r : ℕ) : ℝ :=
  if survivorsOf runs r = 0 then 0
  else (exitsOf runs r : ℝ) / (survivorsOf runs r : ℝ)

/-- `continueProb = Math.max(0, Math.min(1, 1 - hazard))`. -/
noncomputable def continueProbOf (runs : List ℕ) (r : ℕ) : ℝ :=
  max 0 (min 1 (1 - hazardOf runs r))

/-- `semiMarkovAdjustFirstRow` of markov.ts (the options variant): blend the
duration-model continuation probability into the stay entry with weight
`smoothing` (default 0.35), clamp it to [0,1], and rescale the other entries
proportionally to the remaining mass; rows are returned unchanged when the
sequence is empty or fewer than `minSamples` (default 2) runs exist. -/
noncomputable def semiMarkovAdjustFirstRow (row : Fin 4 → ℝ) (states : List State)
    (optSmoothing : Option ℝ) (optMinSamples : Option ℕ) : Fin 4 → ℝ :=
  match states.getLast? with
  | none => row
  | some cur =>
    let curIdx := Idx cur
    let runs := extractRuns states cur
    if runs.length < optMinSamples.getD 2 then row
    else
      let currentRun := currentRunOf states cur
      let targetStay :=
        if 1 < currentRun then max 0.05 (continueProbOf runs currentRun)
        else continueProbOf runs currentRun
      let smoothing := optSmoothing.getD 0.35
      let stay := max 0 (min 1 (row curIdx * (1 - smoothing) + targetStay * smoothing))
      let remainder := 1 - stay
      let otherSum := ∑ j, if j = curIdx then 0 else row j
      fun i =>
        if i = curIdx then stay
        else if otherSum = 0 then remainder / 3
        else row i / otherSum * remainder

theorem sum_ite_zero_eq_sum_erase (row : Fin 4 → ℝ) (c : Fin 4) :
    (∑ j, if j = c then 0 else row j) = ∑ j ∈ Finset.univ.erase c, row j := by
  rw [← Finset.sum_erase_add Finset.univ _ (Finset.mem_univ c), if_pos rfl, add_zero]
  exact Finset.sum_congr rfl fun j hj => if_neg (Finset.ne_of_mem_erase hj)

end Markov

/-- C2: for every input row that is a probability distribution and every state
sequence (and any smoothing/minSamples options), the row returned by
`semiMarkovAdjustFirstRow` sums to 1 with all entries in [0,1]: the stay entry
is clamped to [0,1] and the remaining entries are rescaled proportionally to
the remaining mass. -/
theorem semiMarkov_preserves_distribution (row : Fin 4 → ℝ) (states : List State)
    (os : Option ℝ) (oms : Option ℕ)
    (hnn : ∀ i, 0 ≤ row i) (hsum : ∑ i, row i = 1) :
    (∑ i, Markov.semiMarkovAdjustFirstRow row states os oms i) = 1 ∧
    (∀ i, 0 ≤ Markov.semiMarkovAdjustFirstRow row states os oms i ∧
      Markov.semiMarkovAdjustFirstRow row states os oms i ≤ 1) := by
  have hle1 : ∀ i, row i ≤ 1 := fun i =>
    hsum ▸ Finset.single_le_sum (fun j _ => hnn j) (Finset.mem_univ i)
  cases hlast : states.getLast? with
  | none =>
    simp only [Markov.semiMarkovAdjustFirstRow, hlast]
    exact ⟨hsum, fun i => ⟨hnn i, hle1 i⟩⟩
  | some cur =>
    simp only [Markov.semiMarkovAdjustFirstRow, hlast]
    by_cases hguard : (Markov.extractRuns states cur).length < oms.getD 2
    · simp only [if_pos hguard]
      exact ⟨hsum, fun i => ⟨hnn i, hle1 i⟩⟩
    · simp only [if_neg hguard]
      set c := Idx cur with hc
      set targetStay :=
        if 1 < Markov.currentRunOf states cur
        then max 0.05 (Markov.continueProbOf (Markov.extractRuns states cur)
          (Markov.currentRunOf states cur))
        else Markov.continueProbOf (Markov.extractRuns states cur)
          (Markov.currentRunOf states cur) with hts
      set stay := max 0 (min 1 (row c * (1 - os.getD 0.35) + targetStay * os.getD 0.35))
        with hstay
      set otherSum := ∑ j, if j = c then 0 else row j with hos
      have hstay0 : 0 ≤ stay := le_max_left 0 _
      have hstay1 : stay ≤ 1 := max_le (by norm_num) (min_le_left 1 _)
      have hrem0 : 0 ≤ 1 - stay := by linarith
      have hrem1 : 1 - stay ≤ 1 := by linarith
      have hosE : otherSum = ∑ j ∈ Finset.univ.erase c, row j :=
        Markov.sum_ite_zero_eq_sum_erase row c
      have hos0 : 0 ≤ otherSum := by
        rw [hosE]; exact Finset.sum_nonneg fun j _ => hnn j
      have hrowle : ∀ i, i ≠ c → row i ≤ otherSum := by
        intro i hi
        rw [hosE]
        exact Finset.single_le_sum (fun j _ => hnn j)
          (Finset.mem_erase.mpr ⟨hi, Finset.mem_univ i⟩)
      constructor
      · rw [← Finset.sum_erase_add Finset.univ _ (Finset.mem_univ c), if_pos rfl]
        have herase : ∀ i ∈ Finset.univ.erase c,
            (if i = c then stay
             else if otherSum = 0 then (1 - stay) / 3
             else row i / otherSum * (1 - stay)) =
            (if otherSum = 0 then (1 - stay) / 3
             else row i / otherSum * (1 - stay)) := fun i hi =>
          if_neg (Finset.ne_of_mem_erase hi)
        rw [Finset.sum_congr rfl herase]
        by_cases hz : otherSum = 0
        · simp only [if_pos hz]
          rw [Finset.sum_const, Finset.card_erase_of_mem (Finset.mem_univ c)]
          simp
          ring
        · simp only [if_neg hz]
          have : ∑ i ∈ Finset.univ.erase c, row i / otherSum * (1 - stay) =
              (∑ i ∈ Finset.univ.erase c, row i) / otherSum * (1 - stay) := by
            rw [← Finset.sum_mul, ← Finset.sum_div]
          rw [this, ← hosE, div_self hz, one_mul]
          ring
      · intro i
        by_cases hic : i = c
        · simp only [if_pos hic]
          exact ⟨hstay0, hstay1⟩
        · simp only [if_neg hic]
          by_cases hz : otherSum = 0
          · simp only [if_pos hz]
            constructor
            · positivity
            · linarith
          · simp only [if_neg hz]
            have hospos : 0 < otherSum := lt_of_le_of_ne hos0 (Ne.symm hz)
            constructor
            · exact mul_nonneg (div_nonneg (hnn i) hos0) hrem0
            · have hdiv : row i / otherSum ≤ 1 :=
                (div_le_one hospos).mpr (hrowle i hic)
              have hdiv0 : 0 ≤ row i / otherSum := div_nonneg (hnn i) hos0
              calc row i / otherSum * (1 - stay) ≤ 1 * (1 - stay) :=
                    mul_le_mul_of_nonneg_right hdiv hrem0
                _ ≤ 1 := by linarith

/-- Witness for C2 at the uniform row and the sequence `[U]`. -/
theorem semiMarkov_preserves_distribution_witness :
    (∀ i : Fin 4, 0 ≤ (fun _ : Fin 4 => (1/4 : ℝ)) i) ∧
    (∑ i, (fun _ : Fin 4 => (1/4 : ℝ)) i) = 1 ∧
    ((∑ i, Markov.semiMarkovAdjustFirstRow (fun _ => 1/4) [State.U] none none i) = 1 ∧
      (∀ i, 0 ≤ Markov.semiMarkovAdjustFirstRow (fun _ => 1/4) [State.U] none none i ∧
        Markov.semiMarkovAdjustFirstRow (fun _ => 1/4) [State.U] none none i ≤ 1)) :=
  ⟨fun _ => by norm_num, by simp [Finset.sum_const, Finset.card_univ],
    semiMarkov_preserves_distribution (fun _ => 1/4) [State.U] none none
      (fun _ => by norm_num) (by simp [Finset.sum_const, Finset.card_univ])⟩

namespace Markov

/-- `matMul` of markov.ts: 4×4 matrix product. -/
noncomputable def matMul (A B : Fin 4 → Fin 4 → ℝ) : Fin 4 → Fin 4 → ℝ :=
  fun r c => ∑ m, A r m * B m c

/-- The 4×4 identity matrix (the initial `result` of `matPow`). -/
noncomputable def idMat : Fin 4 → Fin 4 → ℝ := fun r c => if r = c then 1 else 0

/-- `matPow` of markov.ts: `k` successive right-multiplications starting from
the identity; `matPow M 0 = idMat`. -/
noncomputable def matPow (M : Fin 4 → Fin 4 → ℝ) : ℕ → Fin 4 → Fin 4 → ℝ
  | 0 => idMat
  | n + 1 => matMul (matPow M n) M

/-- `vecMul` of markov.ts: row vector times matrix. -/
noncomputable def vecMul (v : Fin 4 → ℝ) (M : Fin 4 → Fin 4 → ℝ) : Fin 4 → ℝ :=
  fun j => ∑ k, v k * M k j

/-- The one-hot vector `v0` with a 1 at the current state's index. -/
noncomputable def oneHot (s : State) : Fin 4 → ℝ := fun j => if j = Idx s then 1 else 0

/-- The transition matrix with the current state's row replaced by the blended
(`firstRowAdj`) row. -/
noncomputable def withAdjMatrix (M : Fin 4 → Fin 4 → ℝ) (s : State)
    (adj : Fin 4 → ℝ) : Fin 4 → Fin 4 → ℝ :=
  fun r c => if r = Idx s then adj c else M r c

/-- `multiStepForecast` of markov.ts: per named horizon with step count `k`,
return the one-hot vector unchanged when `k ≤ 0`; otherwise apply the
row-substituted matrix once (`matPow(withAdj, 1)`) and, when `k > 1`, the
unmodified matrix to the power `k - 1`. -/
noncomputable def multiStepForecast (transition : Fin 4 → Fin 4 → ℝ) (currentState : State)
    (steps : List (String × ℤ)) (firstRowAdj : Option (Fin 4 → ℝ)) :
    List (String × (Fin 4 → ℝ)) :=
  let v0 := oneHot currentState
  steps.map fun p =>
    (p.1,
      if p.2 ≤ 0 then v0
      else
        match firstRowAdj with
        | some adj =>
          let withAdj := withAdjMatrix transition currentState adj
          let vec := vecMul v0 (matPow withAdj 1)
          if 1 < p.2 then vecMul vec (matPow transition (p.2 - 1).toNat) else vec
        | none => vecMul v0 (matPow transition p.2.toNat))

theorem matMul_id_left (M : Fin 4 → Fin 4 → ℝ) : matMul idMat M = M := by
  funext r c
  unfold matMul idMat
  rw [Finset.sum_congr rfl
    (fun m _ => show (if r = m then (1:ℝ) else 0) * M m c
      = if r = m then M m c else 0 by split <;> simp)]
  rw [Finset.sum_ite_eq]
  simp

theorem matPow_one (M : Fin 4 → Fin 4 → ℝ) : matPow M 1 = M := by
  show matMul (matPow M 0) M = M
  show matMul idMat M = M
  exact matMul_id_left M

theorem vecMul_id (v : Fin 4 → ℝ) : vecMul v idMat = v := by
  funext j
  unfold vecMul idMat
  rw [Finset.sum_congr rfl
    (fun k _ => show v k * (if k = j then (1:ℝ) else 0)
      = if k = j then v k else 0 by split <;> simp)]
  rw [Finset.sum_ite_eq']
  simp

end Markov

/-- C3: for every transition matrix, current state `s`, step list and blended
first-row adjustment, `multiStepForecast` maps each horizon entry with step
count `k` to: the one-hot vector of `s` unchanged when `k ≤ 0`; and, when
`k ≥ 1`, one-hot(`s`) multiplied by the matrix with row `s` replaced by the
blended row exactly once, then by the unmodified matrix to the power `k-1`. -/
theorem multiStepForecast_spec (transition : Fin 4 → Fin 4 → ℝ) (s : State)
    (steps : List (String × ℤ)) (adj : Fin 4 → ℝ) :
    Markov.multiStepForecast transition s steps (some adj) =
      steps.map fun p =>
        (p.1,
          if p.2 ≤ 0 then Markov.oneHot s
          else Markov.vecMul
            (Markov.vecMul (Markov.oneHot s) (Markov.withAdjMatrix transition s adj))
            (Markov.matPow transition (p.2 - 1).toNat)) := by
  unfold Markov.multiStepForecast
  apply List.map_congr_left
  intro p _
  by_cases hk : p.2 ≤ 0
  · simp [hk]
  · simp only [if_neg hk]
    rw [Markov.matPow_one]
    by_cases h1 : 1 < p.2
    · simp [h1]
    · have hp1 : p.2 = 1 := by omega
      simp [hp1, Markov.vecMul_id]
      exact (Markov.vecMul_id _).symm

namespace Part6

/-- `normalizeRow` of part_006: divide by the row sum, uniform fallback when
the sum is not positive. -/
def normalizeRow (row : Fin 4 → ℚ) : Fin 4 → ℚ :=
  if (∑ j, row j) ≤ 0 then fun _ => 1/4
  else fun j => row j / (∑ j, row j)

/-- `survivalProb` of part_006: `(#{samples > runLength} + 1) / (#samples + 2)`,
and `0.5` when there are no samples. -/
def survivalProb (samples : List ℕ) (runLength : ℕ) : ℚ :=
  if samples = [] then 1/2
  else (((samples.filter fun v => runLength < v).length : ℚ) + 1) /
    ((samples.length : ℚ) + 2)

/-- The `(states[i-1], states[i], states[i+1])` triples scanned by
`buildOrder2Counts` (loop over `1 ≤ i`, `i + 1 < states.length`). -/
def order2Triples (states : List State) : List (State × State × State) :=
  states.zip (states.tail.zip states.tail.tail)

/-- `buildOrder2Counts` of part_006: the table has an entry for a pair exactly
when the pair occurs as two consecutive states (with a successor), holding the
per-next-state occurrence counts. -/
def buildOrder2Counts (states : List State) : State × State → Option (Fin 4 → ℕ) :=
  fun pr =>
    let rel := (order2Triples states).filter fun t => t.1 = pr.1 ∧ t.2.1 = pr.2
    if rel = [] then none
    else some fun b => (rel.filter fun t => Idx t.2.2 = b).length

/-- `rowFromOrder2` of part_006: `null` when the pair is absent or its total
count is below `minCount` (source default 12); otherwise the `+0.5`-smoothed
normalized row. -/
def rowFromOrder2 (table : State × State → Option (Fin 4 → ℕ)) (pair : State × State)
    (minCount : ℕ) : Option (Fin 4 → ℚ) :=
  match table pair with
  | none => none
  | some arr =>
    if (∑ b, arr b) < minCount then none
    else some (normalizeRow fun b => (arr b : ℚ) + 1/2)

/-- The observed total count of a pair, 0 when the pair was never observed. -/
def pairTotal (table : State × State → Option (Fin 4 → ℕ))
    (pair : State × State) : ℕ :=
  match table pair with
  | none => 0
  | some arr => ∑ b, arr b

end Part6

/-- C7: for every order-2 table and ordered state pair, `rowFromOrder2` (at the
source's default threshold 12) returns `none` exactly when the pair's total
observed count is below 12 (an absent pair counting as 0); otherwise it returns
the row obtained by adding 0.5 to each of the 4 counts and normalizing, a valid
probability distribution. -/
theorem rowFromOrder2_spec (table : State × State → Option (Fin 4 → ℕ))
    (pair : State × State) :
    (Part6.rowFromOrder2 table pair 12 = none ↔ Part6.pairTotal table pair < 12) ∧
    (∀ row, Part6.rowFromOrder2 table pair 12 = some row →
      ∃ arr, table pair = some arr ∧
        (∀ b, row b = ((arr b : ℚ) + 1/2) / (((∑ c, arr c : ℕ) : ℚ) + 2)) ∧
        (∑ b, row b) = 1 ∧ (∀ b, 0 ≤ row b ∧ row b ≤ 1)) := by
  cases htab : table pair with
  | none =>
    constructor
    · simp [Part6.rowFromOrder2, Part6.pairTotal, htab]
    · intro row h
      simp [Part6.rowFromOrder2, htab] at h
  | some arr =>
    have hsumf : (∑ b, ((arr b : ℚ) + 1/2)) = ((∑ c, arr c : ℕ) : ℚ) + 2 := by
      rw [Finset.sum_add_distrib]
      rw [← Nat.cast_sum]
      norm_num [Finset.sum_const, Finset.card_univ]
    by_cases hT : (∑ b, arr b) < 12
    · constructor
      · simp [Part6.rowFromOrder2, Part6.pairTotal, htab, hT]
      · intro row h
        simp [Part6.rowFromOrder2, htab, hT] at h
    · constructor
      · simp [Part6.rowFromOrder2, Part6.pairTotal, htab, hT]
      · intro row h
        simp only [Part6.rowFromOrder2, htab, if_neg hT, Option.some.injEq] at h
        refine ⟨arr, rfl, ?_, ?_, ?_⟩
        · intro b
          rw [← h]
          unfold Part6.normalizeRow
          have hposQ : (0:ℚ) < ((∑ c, arr c : ℕ) : ℚ) + 2 := by positivity
          rw [if_neg (by rw [hsumf]; exact not_le.mpr hposQ), hsumf]
        · rw [← h]
          unfold Part6.normalizeRow
          have hposQ : (0:ℚ) < ((∑ c, arr c : ℕ) : ℚ) + 2 := by positivity
          rw [if_neg (by rw [hsumf]; exact not_le.mpr hposQ)]
          rw [← Finset.sum_div, hsumf]
          exact div_self (ne_of_gt hposQ)
        · intro b
          rw [← h]
          unfold Part6.normalizeRow
          have hposQ : (0:ℚ) < ((∑ c, arr c : ℕ) : ℚ) + 2 := by positivity
          rw [if_neg (by rw [hsumf]; exact not_le.mpr hposQ), hsumf]
          constructor
          · positivity
          · rw [div_le_one hposQ]
            have : (arr b : ℚ) ≤ ((∑ c, arr c : ℕ) : ℚ) :=
              Nat.cast_le.mpr (Finset.single_le_sum
                (fun c _ => Nat.zero_le (arr c)) (Finset.mem_univ b))
            linarith

namespace Part6

/-- A concrete order-2 table used as the C7 witness input: the pair `(D, D)`
was observed 12 times, always continuing to `D`; no other pair observed. -/
def tableW : State × State → Option (Fin 4 → ℕ) := fun pr =>
  if pr = (State.D, State.D) then some fun b => if b = (0 : Fin 4) then 12 else 0
  else none

end Part6

/-- Witness for C7: on the concrete table with 12 observations of `(D, D)`
(meeting the threshold), the smoothed normalized row is returned and the
implication hypothesis is discharged at that concrete row. -/
theorem rowFromOrder2_spec_witness :
    (Part6.rowFromOrder2 Part6.tableW (State.D, State.D) 12 =
      some (Part6.normalizeRow fun b =>
        (((if b = (0 : Fin 4) then 12 else 0 : ℕ) : ℚ) + 1/2))) ∧
    (∃ arr, Part6.tableW (State.D, State.D) = some arr ∧
      (∀ b, (Part6.normalizeRow fun c =>
          (((if c = (0 : Fin 4) then 12 else 0 : ℕ) : ℚ) + 1/2)) b =
        ((arr b : ℚ) + 1/2) / (((∑ c, arr c : ℕ) : ℚ) + 2)) ∧
      (∑ b, (Part6.normalizeRow fun c =>
          (((if c = (0 : Fin 4) then 12 else 0 : ℕ) : ℚ) + 1/2)) b) = 1 ∧
      (∀ b, 0 ≤ (Part6.normalizeRow fun c =>
          (((if c = (0 : Fin 4) then 12 else 0 : ℕ) : ℚ) + 1/2)) b ∧
        (Part6.normalizeRow fun c =>
          (((if c = (0 : Fin 4) then 12 else 0 : ℕ) : ℚ) + 1/2)) b ≤ 1)) :=
  ⟨rfl, (rowFromOrder2_spec Part6.tableW (State.D, State.D)).2 _ rfl⟩

namespace Markov

theorem survivors_split (samples : List ℕ) (r : ℕ) :
    survivorsOf samples r =
      exitsOf samples r + (samples.filter fun v => r < v).length := by
  unfold survivorsOf exitsOf
  induction samples with
  | nil => rfl
  | cons x xs ih =>
    simp only [List.filter_cons]
    rcases lt_trichotomy x r with hx | hx | hx
    · have h1 : ¬ r ≤ x := not_le.mpr hx
      have h2 : ¬ x = r := ne_of_lt hx
      have h3 : ¬ r < x := by omega
      simp [h1, h2, h3, ih]
    · subst hx
      simp [le_refl, lt_irrefl, ih]
      omega
    · have h1 : r ≤ x := le_of_lt hx
      have h2 : ¬ x = r := ne_of_gt hx
      simp [h1, h2, hx, ih]
      omega

end Markov

/-- C5 counterexample: at run-length samples `[1, 3]` and current run length 2,
the duration model's continuation probability `survivalProb` is
`(#(runs > 2) + 1) / (#runs + 2) = (1+1)/(2+2) = 1/2`, while the claimed
`(survivors − exits + 1)/(survivors + 2)` is `(1−0+1)/(1+2) = 2/3`. -/
theorem survival_formula_counterexample :
    Part6.survivalProb [1, 3] 2 ≠
      ((Markov.survivorsOf [1, 3] 2 : ℚ) - (Markov.exitsOf [1, 3] 2 : ℚ) + 1) /
        ((Markov.survivorsOf [1, 3] 2 : ℚ) + 2) := by
  have h1 : Markov.survivorsOf [1, 3] 2 = 1 := by decide
  have h2 : Markov.exitsOf [1, 3] 2 = 0 := by decide
  have hf : (([1, 3] : List ℕ).filter fun v => 2 < v).length = 1 := by decide
  have h3 : Part6.survivalProb [1, 3] 2 = 1/2 := by
    unfold Part6.survivalProb
    rw [if_neg (by decide), hf]
    norm_num
  rw [h1, h2, h3]
  norm_num

/-- C5 amended: the duration model's continuation probability equals
`(survivors − exits + 1) / (n + 2)` where `n` is the total number of historical
runs (not the number of survivors); on an empty sample list both sides are 1/2.
Separately, markov.ts's `semiMarkovAdjustFirstRow` uses the unsmoothed
`1 − exits/survivors` (clamped, 0 hazard when no survivors), which is a
different quantity. -/
theorem survival_formula_amended (samples : List ℕ) (r : ℕ) :
    Part6.survivalProb samples r =
      ((Markov.survivorsOf samples r : ℚ) - (Markov.exitsOf samples r : ℚ) + 1) /
        ((samples.length : ℚ) + 2) := by
  by_cases h : samples = []
  · subst h
    have : Part6.survivalProb [] r = 1/2 := by
      unfold Part6.survivalProb
      rw [if_pos rfl]
    rw [this]
    norm_num [Markov.survivorsOf, Markov.exitsOf]
  · unfold Part6.survivalProb
    rw [if_neg h]
    congr 1
    have key := Markov.survivors_split samples r
    have hcast : (Markov.survivorsOf samples r : ℚ) =
        (Markov.exitsOf samples r : ℚ) +
          ((samples.filter fun v => r < v).length : ℚ) := by
      exact_mod_cast key
    linarith

namespace Conditioning

structure LogitModel where
  W : List (List ℝ)
  b : List ℝ
  temperature : ℝ

/-- `defaultLogitModel` of conditioning.ts: all-zero 4×10 weight matrix,
all-zero bias, temperature 1.2. -/
noncomputable def defaultLogitModel : LogitModel :=
  ⟨List.replicate 4 (List.replicate 10 0), List.replicate 4 0, 1.2⟩

/-- The dot product `features.reduce((acc, v, f) => acc + v * (weights[f] ?? 0), 0)`:
missing weight entries contribute 0. -/
noncomputable def dotD : List ℝ → List ℝ → ℝ
  | [], _ => 0
  | f :: fs, [] => f * 0 + dotD fs []
  | f :: fs, w :: ws => f * w + dotD fs ws

/-- `conditionedRow` of conditioning.ts: per-state logits `bias + W·features`,
temperature scaling (floored at 1e-6), max-shifted softmax. -/
noncomputable def conditionedRow (features : List ℝ) (model : LogitModel) : Fin 4 → ℝ :=
  let logits : Fin 4 → ℝ := fun j =>
    model.b.getD (j : ℕ) 0 + dotD features (model.W.getD (j : ℕ) [])
  let temperature := max 1e-6 model.temperature
  let scaled : Fin 4 → ℝ := fun j => logits j / temperature
  let maxLogit := max (max (scaled 0) (scaled 1)) (max (scaled 2) (scaled 3))
  let exps : Fin 4 → ℝ := fun j => Real.exp (scaled j - maxLogit)
  let Z := ∑ j, exps j
  fun j => exps j / Z

theorem dotD_nil_right (fs : List ℝ) : dotD fs [] = 0 := by
  induction fs with
  | nil => rfl
  | cons f fs ih => simp [dotD, ih]

theorem dotD_zero (fs : List ℝ) (n : ℕ) : dotD fs (List.replicate n 0) = 0 := by
  induction fs generalizing n with
  | nil => rfl
  | cons f fs ih =>
    cases n with
    | zero => simp [dotD, dotD_nil_right]
    | succ m => simp [List.replicate, dotD, ih]

theorem getD_replicate_of_lt {α : Type} (n : ℕ) (x d : α) (i : ℕ) (h : i < n) :
    (List.replicate n x).getD i d = x := by
  rw [List.getD_eq_getElem _ _ (by simpa using h)]
  simp

end Conditioning

/-- C10: for every feature vector of the fixed dimension 10 (all values finite
by construction in this exact-real embedding), `conditionedRow` applied with
the untrained default model (all-zero weights, zero bias, temperature 1.2)
returns exactly the uniform row, 1/4 in every entry. -/
theorem conditionedRow_default_uniform (features : List ℝ)
    (h : features.length = 10) :
    ∀ j, Conditioning.conditionedRow features Conditioning.defaultLogitModel j = 1/4 := by
  intro j
  unfold Conditioning.conditionedRow Conditioning.defaultLogitModel
  have hW : ∀ k : Fin 4,
      (List.replicate 4 (List.replicate 10 (0:ℝ))).getD (k : ℕ) [] =
        List.replicate 10 0 :=
    fun k => Conditioning.getD_replicate_of_lt 4 _ [] _ k.isLt
  have hb : ∀ k : Fin 4, (List.replicate 4 (0:ℝ)).getD (k : ℕ) 0 = 0 :=
    fun k => Conditioning.getD_replicate_of_lt 4 _ 0 _ k.isLt
  simp only [hW, hb, Conditioning.dotD_zero, add_zero, zero_div, zero_add]
  norm_num [max_self, Real.exp_zero, Finset.sum_const, Finset.card_univ]

/-- Witness for C10 at the all-zero ten-dimensional feature vector. -/
theorem conditionedRow_default_uniform_witness :
    (List.replicate 10 (0:ℝ)).length = 10 ∧
    ∀ j, Conditioning.conditionedRow (List.replicate 10 0)
      Conditioning.defaultLogitModel j = 1/4 :=
  ⟨by simp, conditionedRow_default_uniform (List.replicate 10 0) (by simp)⟩

namespace Compute

/-- `TransitionMetrics` of compute.ts; `logLikelihood = none` models the NaN
produced when no transition is scored (`count === 0`), and similarly for the
other metrics. -/
structure TransitionMetrics where
  logLikelihood : Option ℝ
  brier : Option ℝ
  accuracy : Option ℝ
  count : ℕ

/-- The running best-probability index of a scored row (`bestIdx`): start at 0
and move only on a strictly greater entry, so the first maximum wins. -/
noncomputable def rowArgmax (row : Fin 4 → ℝ) : Fin 4 :=
  ([1, 2, 3] : List (Fin 4)).foldl (fun best j => if row best < row j then j else best) 0

/-- `scoreTransitionModel` of compute.ts: mean one-step log-likelihood (with
probabilities floored at 1e-12), mean Brier score and hit accuracy over all
observed transitions; all-NaN metrics (modelled `none`) when there are none. -/
noncomputable def scoreTransitionModel (states : List State)
    (probs : Fin 4 → Fin 4 → ℝ) : TransitionMetrics :=
  let trans := states.zip states.tail
  let count := trans.length
  if count = 0 then ⟨none, none, none, 0⟩
  else
    let ll := (trans.map fun p =>
      Real.log (max (probs (Idx p.1) (Idx p.2)) 1e-12)).sum
    let brier := (trans.map fun p =>
      ∑ j, (probs (Idx p.1) j - if j = Idx p.2 then 1 else 0)^2).sum
    let acc := ((trans.filter fun p => rowArgmax (probs (Idx p.1)) = Idx p.2).length : ℝ)
    ⟨some (ll / count), some (brier / count), some (acc / count), count⟩

/-- JS `Math.round` (round half toward positive infinity). -/
noncomputable def jsRound (x : ℝ) : ℤ := ⌊x + 1/2⌋

open Classical in
/-- `Array.from(new Set(...))`: deduplication keeping the first occurrence of
each value, in order. -/
noncomputable def dedupFirst (l : List ℝ) : List ℝ :=
  l.foldl (fun acc x => if x ∈ acc then acc else acc ++ [x]) []

/-- The candidate half-life list of `computeAll` (lines 212-220): with
`autoHalfLife`, the multiples 0.5×, 1×, 1.5×, 2× of the configured value,
rounded, floored at 10 and deduplicated in first-occurrence order (the
`Number.isFinite` filter is the identity in this exact-real embedding);
otherwise just the configured value. -/
noncomputable def halfLifeCandidates (halfLife : ℝ) (auto : Bool) : List ℝ :=
  if auto then
    dedupFirst (([halfLife * 0.5, halfLife, halfLife * 1.5, halfLife * 2]).map
      fun v => max 10 ((jsRound v : ℝ)))
  else [halfLife]

/-- The accumulator of the candidate loop (`bestBuild`, `bestMetrics`,
`bestHalfLife`, initialized to `null`/`null`/`cfg.halfLife`). -/
structure SelState where
  bestBuild : Option Markov.MarkovBuildResult
  bestMetrics : Option TransitionMetrics
  bestHalfLife : ℝ

/-- The displacement condition of the candidate loop
(`isFiniteNum(metrics.logLikelihood) && metrics.logLikelihood > bestMetrics.logLikelihood`):
a candidate score `m` displaces an incumbent score `b` only when both are
finite (`some`, since a NaN comparison is false in JS) and `m` is strictly
greater. -/
def beats : Option ℝ → Option ℝ → Prop
  | some x, some y => y < x
  | _, _ => False

open Classical in
/-- One iteration of the candidate loop (compute.ts lines 226-234): build at
the candidate half-life, score it, and replace the incumbent when there is
none, or when the candidate's log-likelihood beats the incumbent's. -/
noncomputable def selStep (states : List State) (window : ℕ)
    (smoothing dirichlet : ℝ) (order : ℕ) (acc : SelState) (halfLife : ℝ) : SelState :=
  let result := Markov.buildMarkovWeighted states window smoothing halfLife dirichlet order
  let metrics := scoreTransitionModel states result.probs
  match acc.bestMetrics with
  | none => ⟨some result, some metrics, halfLife⟩
  | some bm =>
    if beats metrics.logLikelihood bm.logLikelihood
    then ⟨some result, some metrics, halfLife⟩
    else acc

/-- The half-life model selector of `computeAll` (lines 212-234): fold the
candidate loop over the candidate list starting from the empty accumulator. -/
noncomputable def selectHalfLife (states : List State) (window : ℕ)
    (smoothing dirichlet : ℝ) (order : ℕ) (halfLife0 : ℝ) (auto : Bool) : SelState :=
  (halfLifeCandidates halfLife0 auto).foldl
    (selStep states window smoothing dirichlet order) ⟨none, none, halfLife0⟩

end Compute

namespace Compute

theorem decayWeights_one (hl : ℝ) : Markov.decayWeights 1 hl = [1] := by
  unfold Markov.decayWeights
  split
  · rfl
  · rw [show List.range 1 = [0] from rfl]
    simp only [List.map_cons, List.map_nil, Markov.listMax, List.foldl_nil]
    norm_num

theorem transWeight_UU (hl : ℝ) :
    Markov.transWeight [State.U, State.U] hl 0 0 = 1 := by
  unfold Markov.transWeight
  rw [show (Markov.transOf [State.U, State.U]).length = 1 from rfl, decayWeights_one]
  rw [show ([(1:ℝ)].getD 0 0) = 1 from rfl]
  unfold Markov.contextFactor
  rw [if_pos rfl]
  norm_num

theorem counts_UU (hl : ℝ) (a b : Fin 4) :
    Markov.countsOf [State.U, State.U] hl 0 a b =
      if Idx State.U = a ∧ Idx State.U = b then 1 else 0 := by
  unfold Markov.countsOf
  rw [show (Markov.transOf [State.U, State.U]).length = 1 from rfl]
  rw [Finset.sum_range_one]
  rw [show (Markov.transOf [State.U, State.U]).getD 0 (State.D, State.D) =
    (State.U, State.U) from rfl]
  simp only [transWeight_UU]

theorem rowTotal_UU (hl : ℝ) :
    Markov.rowTotalOf [State.U, State.U] 0 hl 0 0 (Idx State.U) = 1 := by
  unfold Markov.rowTotalOf Markov.withPriorOf
  simp only [counts_UU, Markov.priorOf_zero, add_zero]
  rw [Fin.sum_univ_four]
  simp [Idx]

theorem probs_UU (hl : ℝ) :
    Markov.probsOf [State.U, State.U] 0 hl 0 0 (Idx State.U) (Idx State.U) = 1 := by
  unfold Markov.probsOf
  rw [rowTotal_UU, if_neg one_ne_zero]
  unfold Markov.withPriorOf
  simp only [counts_UU, Markov.priorOf_zero, add_zero]
  norm_num

theorem buildProbs_UU (hl : ℝ) :
    (Markov.buildMarkovWeighted [State.U, State.U] 10 0 hl 0 1).probs
      (Idx State.U) (Idx State.U) = 1 := by
  rw [Markov.buildMarkov_probs_main [State.U, State.U] 10 0 hl 0 1 (by decide)]
  rw [show Markov.buildFiltered [State.U, State.U] 10 = [State.U, State.U] from rfl]
  rw [show max 1 1 - 1 = 0 from rfl]
  exact probs_UU hl

theorem score_UU (hl : ℝ) :
    (scoreTransitionModel [State.U, State.U]
      (Markov.buildMarkovWeighted [State.U, State.U] 10 0 hl 0 1).probs).logLikelihood
      = some 0 := by
  unfold scoreTransitionModel
  rw [show ([State.U, State.U].zip [State.U, State.U].tail) = [(State.U, State.U)]
    from rfl]
  rw [if_neg (by norm_num)]
  simp only [List.map_cons, List.map_nil, List.sum_cons, List.sum_nil, add_zero]
  rw [buildProbs_UU hl]
  rw [max_eq_left (by norm_num : (1e-12:ℝ) ≤ 1), Real.log_one]
  norm_num

end Compute

namespace Compute

theorem selStep_none (states : List State) (window : ℕ) (smoothing dirichlet : ℝ)
    (order : ℕ) (hl hl0 : ℝ) :
    selStep states window smoothing dirichlet order ⟨none, none, hl0⟩ hl =
      ⟨some (Markov.buildMarkovWeighted states window smoothing hl dirichlet order),
        some (scoreTransitionModel states
          (Markov.buildMarkovWeighted states window smoothing hl dirichlet order).probs),
        hl⟩ := rfl

theorem selStep_not_beat (states : List State) (window : ℕ) (smoothing dirichlet : ℝ)
    (order : ℕ) (hl : ℝ) (bb : Option Markov.MarkovBuildResult)
    (bm : TransitionMetrics) (bhl : ℝ) (x y : ℝ)
    (hm : (scoreTransitionModel states
      (Markov.buildMarkovWeighted states window smoothing hl dirichlet
        order).probs).logLikelihood = some x)
    (hbm : bm.logLikelihood = some y) (hxy : ¬ y < x) :
    selStep states window smoothing dirichlet order ⟨bb, some bm, bhl⟩ hl =
      ⟨bb, some bm, bhl⟩ := by
  have hcond : ¬ beats (scoreTransitionModel states
      (Markov.buildMarkovWeighted states window smoothing hl dirichlet
        order).probs).logLikelihood bm.logLikelihood := by
    rw [hm, hbm]
    exact hxy
  simp only [selStep]
  rw [if_neg hcond]

theorem cands_20 : halfLifeCandidates 20 true = [10, 20, 30, 40] := by
  unfold halfLifeCandidates
  rw [if_pos rfl]
  have h1 : jsRound (20 * 0.5) = 10 := by
    unfold jsRound
    exact Int.floor_eq_iff.mpr (by norm_num)
  have h2 : jsRound 20 = 20 := by
    unfold jsRound
    exact Int.floor_eq_iff.mpr (by norm_num)
  have h3 : jsRound (20 * 1.5) = 30 := by
    unfold jsRound
    exact Int.floor_eq_iff.mpr (by norm_num)
  have h4 : jsRound (20 * 2) = 40 := by
    unfold jsRound
    exact Int.floor_eq_iff.mpr (by norm_num)
  simp only [List.map_cons, List.map_nil, h1, h2, h3, h4]
  have e1 : max (10:ℝ) ((10:ℤ):ℝ) = 10 := by norm_num
  have e2 : max (10:ℝ) ((20:ℤ):ℝ) = 20 := by norm_num
  have e3 : max (10:ℝ) ((30:ℤ):ℝ) = 30 := by norm_num
  have e4 : max (10:ℝ) ((40:ℤ):ℝ) = 40 := by norm_num
  rw [e1, e2, e3, e4]
  unfold dedupFirst
  simp only [List.foldl_cons, List.foldl_nil]
  rw [if_neg (by simp)]
  rw [if_neg (by norm_num)]
  rw [if_neg (by norm_num)]
  rw [if_neg (by norm_num)]
  simp

end Compute

/-- C6 counterexample: on the two-state history `[U, U]` with configured
half-life 20 (auto selection on, window 10, smoothing 0, Dirichlet 0, order 1)
every candidate scores a mean log-likelihood of 0, in particular the 0.5×
candidate (10) and the configured candidate (20) tie for the highest score,
yet the selector chooses 10, not the configured 20. -/
theorem halfLife_selection_counterexample :
    (Compute.scoreTransitionModel [State.U, State.U]
        (Markov.buildMarkovWeighted [State.U, State.U] 10 0 20 0 1).probs).logLikelihood =
      (Compute.scoreTransitionModel [State.U, State.U]
        (Markov.buildMarkovWeighted [State.U, State.U] 10 0 10 0 1).probs).logLikelihood ∧
    (Compute.selectHalfLife [State.U, State.U] 10 0 0 1 20 true).bestHalfLife = 10 ∧
    (10 : ℝ) ≠ 20 := by
  refine ⟨by rw [Compute.score_UU, Compute.score_UU], ?_, by norm_num⟩
  unfold Compute.selectHalfLife
  rw [Compute.cands_20]
  rw [List.foldl_cons, List.foldl_cons, List.foldl_cons, List.foldl_cons, List.foldl_nil]
  rw [Compute.selStep_none]
  rw [Compute.selStep_not_beat [State.U, State.U] 10 0 0 1 20 _ _ _ 0 0
    (Compute.score_UU 20) (Compute.score_UU 10) (lt_irrefl 0)]
  rw [Compute.selStep_not_beat [State.U, State.U] 10 0 0 1 30 _ _ _ 0 0
    (Compute.score_UU 30) (Compute.score_UU 10) (lt_irrefl 0)]
  rw [Compute.selStep_not_beat [State.U, State.U] 10 0 0 1 40 _ _ _ 0 0
    (Compute.score_UU 40) (Compute.score_UU 10) (lt_irrefl 0)]

namespace Compute

/-- The mean one-step log-likelihood assigned to a candidate half-life by the
selector (the quantity compared by the loop). -/
noncomputable def scoreOf (states : List State) (window : ℕ) (smoothing dirichlet : ℝ)
    (order : ℕ) (hl : ℝ) : Option ℝ :=
  (scoreTransitionModel states
    (Markov.buildMarkovWeighted states window smoothing hl dirichlet order).probs).logLikelihood

/-- The accumulator state holding candidate `hl` as the incumbent. -/
noncomputable def selStateAt (states : List State) (window : ℕ)
    (smoothing dirichlet : ℝ) (order : ℕ) (hl : ℝ) : SelState :=
  ⟨some (Markov.buildMarkovWeighted states window smoothing hl dirichlet order),
   some (scoreTransitionModel states
     (Markov.buildMarkovWeighted states window smoothing hl dirichlet order).probs),
   hl⟩

theorem beats_none_right (m : Option ℝ) : ¬ beats m none := by
  cases m <;> exact fun h => h

theorem beats_somes {m b : Option ℝ} (h : beats m b) :
    ∃ x y, m = some x ∧ b = some y ∧ y < x := by
  cases m with
  | none => cases h
  | some x =>
    cases b with
    | none => cases h
    | some y => exact ⟨x, y, rfl, rfl, h⟩

theorem beats_mono {u : Option ℝ} {x y : ℝ} (h : beats u (some x)) (hle : y ≤ x) :
    beats u (some y) := by
  obtain ⟨a, b, ha, hb, hab⟩ := beats_somes h
  cases hb
  rw [ha]
  exact lt_of_le_of_lt hle hab

theorem selStep_eq_beat (states : List State) (window : ℕ) (smoothing dirichlet : ℝ)
    (order : ℕ) (z hl : ℝ)
    (h : beats (scoreOf states window smoothing dirichlet order hl)
      (scoreOf states window smoothing dirichlet order z)) :
    selStep states window smoothing dirichlet order
      (selStateAt states window smoothing dirichlet order z) hl =
      selStateAt states window smoothing dirichlet order hl := by
  unfold scoreOf at h
  simp only [selStep, selStateAt]
  rw [if_pos h]

theorem selStep_eq_keep (states : List State) (window : ℕ) (smoothing dirichlet : ℝ)
    (order : ℕ) (z hl : ℝ)
    (h : ¬ beats (scoreOf states window smoothing dirichlet order hl)
      (scoreOf states window smoothing dirichlet order z)) :
    selStep states window smoothing dirichlet order
      (selStateAt states window smoothing dirichlet order z) hl =
      selStateAt states window smoothing dirichlet order z := by
  unfold scoreOf at h
  simp only [selStep, selStateAt]
  rw [if_neg h]

theorem selFold_none (states : List State) (window : ℕ) (smoothing dirichlet : ℝ)
    (order : ℕ) (l : List ℝ) (z : ℝ)
    (hz : scoreOf states window smoothing dirichlet order z = none) :
    l.foldl (selStep states window smoothing dirichlet order)
        (selStateAt states window smoothing dirichlet order z) =
      selStateAt states window smoothing dirichlet order z := by
  induction l with
  | nil => rfl
  | cons c cs ih =>
    rw [List.foldl_cons,
      selStep_eq_keep states window smoothing dirichlet order z c
        (by rw [hz]; exact beats_none_right _),
      ih]

theorem selFold_argmax (states : List State) (window : ℕ) (smoothing dirichlet : ℝ)
    (order : ℕ) :
    ∀ (l : List ℝ) (z : ℝ),
      ∃ ch l1 l2,
        l.foldl (selStep states window smoothing dirichlet order)
            (selStateAt states window smoothing dirichlet order z) =
          selStateAt states window smoothing dirichlet order ch ∧
        z :: l = l1 ++ ch :: l2 ∧
        (∀ c ∈ l1, beats (scoreOf states window smoothing dirichlet order ch)
            (scoreOf states window smoothing dirichlet order c) ∨
          scoreOf states window smoothing dirichlet order c = none) ∧
        (∀ c ∈ l2, ¬ beats (scoreOf states window smoothing dirichlet order c)
          (scoreOf states window smoothing dirichlet order ch)) := by
  intro l
  induction l with
  | nil =>
    intro z
    exact ⟨z, [], [], rfl, rfl, fun c hc => absurd hc (List.not_mem_nil c),
      fun c hc => absurd hc (List.not_mem_nil c)⟩
  | cons c cs ih =>
    intro z
    by_cases hznone : scoreOf states window smoothing dirichlet order z = none
    · refine ⟨z, [], c :: cs,
        selFold_none states window smoothing dirichlet order (c :: cs) z hznone,
        rfl, fun x hx => absurd hx (List.not_mem_nil x), fun x _ => ?_⟩
      rw [hznone]
      exact beats_none_right _
    · rw [List.foldl_cons]
      by_cases hb : beats (scoreOf states window smoothing dirichlet order c)
          (scoreOf states window smoothing dirichlet order z)
      · rw [selStep_eq_beat states window smoothing dirichlet order z c hb]
        obtain ⟨ch, l1, l2, hfold, hsplit, h1, h2⟩ := ih c
        obtain ⟨xc, yz, hxc, hyz, hlt⟩ := beats_somes hb
        have hzlow : beats (scoreOf states window smoothing dirichlet order ch)
            (scoreOf states window smoothing dirichlet order z) ∨
            scoreOf states window smoothing dirichlet order z = none := by
          left
          cases l1 with
          | nil =>
            have hch : ch = c := by
              simpa using (congrArg (fun t => t.headD 0) hsplit).symm
            rw [hch, hyz, hxc]
            exact hlt
          | cons a rest =>
            have hac : a = c := by
              simpa using (congrArg (fun t => t.headD 0) hsplit).symm
            have hcmem : c ∈ a :: rest := by
              rw [hac]
              exact List.mem_cons_self c rest
            rcases h1 c hcmem with hbeats | hnone
            · rw [hyz]
              rw [hxc] at hbeats
              exact beats_mono hbeats (le_of_lt hlt)
            · rw [hxc] at hnone
              cases hnone
        refine ⟨ch, z :: l1, l2, hfold, ?_, ?_, h2⟩
        · rw [List.cons_append, ← hsplit]
        · intro x hx
          rcases List.mem_cons.mp hx with hxz | hxl1
          · rw [hxz]
            exact hzlow
          · exact h1 x hxl1
      · rw [selStep_eq_keep states window smoothing dirichlet order z c hb]
        obtain ⟨ch, l1, l2, hfold, hsplit, h1, h2⟩ := ih z
        cases l1 with
        | nil =>
          have hch : ch = z := by
            simpa using (congrArg (fun t => t.headD 0) hsplit).symm
          have hcs : l2 = cs := by
            simpa using (congrArg List.tail hsplit).symm
          refine ⟨ch, [], c :: l2, hfold, ?_, h1, ?_⟩
          · rw [hch, hcs]
            rfl
          · intro x hx
            rcases List.mem_cons.mp hx with hxc | hxl2
            · rw [hxc, hch]
              exact hb
            · exact h2 x hxl2
        | cons a rest =>
          have haz : a = z := by
            simpa using (congrArg (fun t => t.headD 0) hsplit).symm
          have hcs : rest ++ ch :: l2 = cs := by
            simpa using (congrArg List.tail hsplit).symm
          have hzmem : z ∈ a :: rest := by
            rw [haz]
            exact List.mem_cons_self z rest
          have hzbeats : beats (scoreOf states window smoothing dirichlet order ch)
              (scoreOf states window smoothing dirichlet order z) := by
            rcases h1 z hzmem with hzb | hzn
            · exact hzb
            · exact absurd hzn hznone
          refine ⟨ch, z :: c :: rest, l2, hfold, ?_, ?_, h2⟩
          · rw [List.cons_append, List.cons_append, hcs]
          · intro x hx
            rcases List.mem_cons.mp hx with hxz | hx2
            · rw [hxz]
              left
              exact hzbeats
            · rcases List.mem_cons.mp hx2 with hxc | hxrest
              · rw [hxc]
                by_cases hcn : scoreOf states window smoothing dirichlet order c = none
                · right
                  exact hcn
                · left
                  obtain ⟨u, yz, hu, hyz, hult⟩ := beats_somes hzbeats
                  obtain ⟨xc, hxc2⟩ := Option.ne_none_iff_exists'.mp hcn
                  rw [hxc2, hu]
                  rw [hxc2, hyz] at hb
                  have hle : xc ≤ yz := not_lt.mp fun hlt => hb hlt
                  exact lt_of_le_of_lt hle hult
              · exact h1 x (List.mem_cons_of_mem a hxrest)

end Compute

namespace Compute

theorem selStep_none_stateAt (states : List State) (window : ℕ)
    (smoothing dirichlet : ℝ) (order : ℕ) (hl hl0 : ℝ) :
    selStep states window smoothing dirichlet order ⟨none, none, hl0⟩ hl =
      selStateAt states window smoothing dirichlet order hl := rfl

theorem dedupFirst_ne_nil (x : ℝ) (xs : List ℝ) : dedupFirst (x :: xs) ≠ [] := by
  unfold dedupFirst
  rw [List.foldl_cons, if_neg (List.not_mem_nil x)]
  have hgen : ∀ (l acc : List ℝ), acc ≠ [] →
      l.foldl (fun acc x => if x ∈ acc then acc else acc ++ [x]) acc ≠ [] := by
    intro l
    induction l with
    | nil => exact fun acc h => h
    | cons y ys ih =>
      intro acc h
      rw [List.foldl_cons]
      by_cases hmem : y ∈ acc
      · rw [if_pos hmem]
        exact ih acc h
      · rw [if_neg hmem]
        exact ih (acc ++ [y]) (by simp)
  exact hgen xs ([] ++ [x]) (by simp)

theorem cands_ne_nil (hl0 : ℝ) (auto : Bool) : halfLifeCandidates hl0 auto ≠ [] := by
  unfold halfLifeCandidates
  cases auto with
  | false => simp
  | true =>
    simp only [if_true, List.map_cons]
    exact dedupFirst_ne_nil _ _

end Compute

/-- C6 amended: the chosen half-life splits the evaluated candidate list
(0.5×, 1×, 1.5×, 2× the configured value, rounded, floored at 10 and
deduplicated in order — just the configured value when auto selection is off)
as `l1 ++ chosen :: l2`, where every candidate before the chosen one has a
strictly lower mean one-step log-likelihood (or no score at all) and no
candidate after it beats the chosen score. In particular the chosen candidate
attains the highest score, and when several candidates tie for the highest
score the earliest one in the list — normally the 0.5× candidate, not the
originally configured half-life — is chosen. -/
theorem halfLife_selection_amended (states : List State) (window : ℕ)
    (smoothing dirichlet : ℝ) (order : ℕ) (hl0 : ℝ) (auto : Bool) :
    ∃ l1 l2,
      Compute.halfLifeCandidates hl0 auto =
        l1 ++ (Compute.selectHalfLife states window smoothing dirichlet order hl0
          auto).bestHalfLife :: l2 ∧
      (∀ c ∈ l1,
        Compute.beats
          (Compute.scoreOf states window smoothing dirichlet order
            (Compute.selectHalfLife states window smoothing dirichlet order hl0
              auto).bestHalfLife)
          (Compute.scoreOf states window smoothing dirichlet order c) ∨
        Compute.scoreOf states window smoothing dirichlet order c = none) ∧
      (∀ c ∈ l2,
        ¬ Compute.beats (Compute.scoreOf states window smoothing dirichlet order c)
          (Compute.scoreOf states window smoothing dirichlet order
            (Compute.selectHalfLife states window smoothing dirichlet order hl0
              auto).bestHalfLife)) := by
  unfold Compute.selectHalfLife
  cases hc : Compute.halfLifeCandidates hl0 auto with
  | nil => exact absurd hc (Compute.cands_ne_nil hl0 auto)
  | cons c0 rest =>
    rw [List.foldl_cons, Compute.selStep_none_stateAt]
    obtain ⟨ch, l1, l2, hfold, hsplit, h1, h2⟩ :=
      Compute.selFold_argmax states window smoothing dirichlet order rest c0
    rw [hfold]
    simp only [Compute.selStateAt]
    exact ⟨l1, l2, hsplit, h1, h2⟩

namespace Regime

/-- `euclideanSquared` of regimeModel.ts (callers pass equal-dimension
vectors, which `zip` pairs exactly). -/
noncomputable def euclideanSquared (a b : List ℝ) : ℝ :=
  ((a.zip b).map fun p => (p.1 - p.2) * (p.1 - p.2)).sum

/-- The minimum squared distance from `p` to a centroid (the `Infinity`-seeded
strict-`<` fold); the `[]` case is unreachable in use. -/
noncomputable def minDistTo (cents : List (List ℝ)) (p : List ℝ) : ℝ :=
  match cents.map (euclideanSquared p) with
  | [] => 0
  | d :: ds => ds.foldl min d

/-- The farthest-point scan of `initCentroids`: the first index attaining the
maximal minimum distance (`bestDist` starts at `-Infinity`, modelled `none`;
only a strictly larger distance moves the index). -/
noncomputable def farthestIndex (data cents : List (List ℝ)) : ℕ :=
  ((data.enum).foldl (fun (acc : ℕ × Option ℝ) ip =>
    match acc.2 with
    | none => (ip.1, some (minDistTo cents ip.2))
    | some bd =>
      let d := minDistTo cents ip.2
      if bd < d then (ip.1, some d) else acc) (0, none)).1

/-- The `while (centroids.length < k)` loop of `initCentroids`. -/
noncomputable def initLoop (data : List (List ℝ)) (k : ℕ) (cents : List (List ℝ)) :
    List (List ℝ) :=
  if cents.length < k then
    initLoop data k (cents ++ [data.getD (farthestIndex data cents) []])
  else cents
termination_by k - cents.length
decreasing_by
  simp only [List.length_append, List.length_cons, List.length_nil]
  omega

/-- `initCentroids` of regimeModel.ts: seed with the middle data point, then
repeatedly add the point farthest from the existing centroids. -/
noncomputable def initCentroids (data : List (List ℝ)) (k : ℕ) : List (List ℝ) :=
  if data = [] then []
  else initLoop data k [data.getD (data.length / 2) []]

/-- The nearest-centroid scan of the assignment pass (`bestDist = Infinity`,
strict `<`, so the first minimum wins); returns the index and the squared
distance (`Math.sqrt` is applied only to the published distances). -/
noncomputable def nearestIndex (cents : List (List ℝ)) (p : List ℝ) : ℕ × ℝ :=
  match (cents.enum).foldl (fun (acc : ℕ × Option ℝ) ic =>
    match acc.2 with
    | none => (ic.1, some (euclideanSquared p ic.2))
    | some bd =>
      let d := euclideanSquared p ic.2
      if d < bd then (ic.1, some d) else acc) (0, none) with
  | (i, none) => (i, 0)
  | (i, some d) => (i, d)

/-- The per-cluster mean `sums[c].map(v => v / counts[c])` with
`dims = data[0].length`. -/
noncomputable def meanVec (members : List (List ℝ)) (dims : ℕ) : List ℝ :=
  (List.range dims).map fun d =>
    ((members.map fun v => v.getD d 0).sum) / (members.length : ℝ)

/-- The centroid-update pass of `kMeans`, including the empty-cluster reseed
`centroids[c] = data[Math.floor(Math.random() * data.length)]`: the stream of
random draws is made explicit as `rng`, the `t`-th call being modelled as the
index `rng t % data.length`; the counter `t` is threaded through. -/
noncomputable def updateCentroids (data : List (List ℝ)) (k : ℕ)
    (asg : List ℕ) (rng : ℕ → ℕ) (t : ℕ) : List (List ℝ) × ℕ :=
  (List.range k).foldl (fun (acc : List (List ℝ) × ℕ) c =>
    let members := ((data.zip asg).filter fun pa => pa.2 = c).map fun pa => pa.1
    if members.length = 0 then
      (acc.1 ++ [data.getD (rng acc.2 % data.length) []], acc.2 + 1)
    else
      (acc.1 ++ [meanVec members (data.headD []).length], acc.2)) ([], t)

/-- The iteration loop of `kMeans`: assignment pass, early exit on
`!moved && iter > 1` (before the centroid update), then the centroid update
with reseed; runs for at most `maxIter` iterations (`fuel`). -/
noncomputable def kMeansLoop (data : List (List ℝ)) (k : ℕ) (rng : ℕ → ℕ) :
    ℕ → ℕ → List (List ℝ) → List ℕ → List ℝ → ℕ →
      List (List ℝ) × List ℕ × List ℝ
  | 0, _, cents, asg, dst, _ => (cents, asg, dst)
  | fuel + 1, iter, cents, asg, _, t =>
    let newAsg := data.map fun p => (nearestIndex cents p).1
    let newDst := data.map fun p => (nearestIndex cents p).2
    if newAsg = asg ∧ 1 < iter then (cents, newAsg, newDst)
    else
      let upd := updateCentroids data k newAsg rng t
      kMeansLoop data k rng fuel (iter + 1) upd.1 newAsg newDst upd.2

structure KMeansResult where
  centroids : List (List ℝ)
  assignments : List ℕ
  distances : List ℝ

/-- `kMeans` of regimeModel.ts (maxIter defaults to 60 at the call sites used
here), with the random source of the empty-cluster reseed made an explicit
input `rng`; the published distances are `sqrt(max(bestDist, 0))`. -/
noncomputable def kMeans (data : List (List ℝ)) (k : ℕ) (maxIter : ℕ)
    (rng : ℕ → ℕ) : KMeansResult :=
  if data = [] then ⟨[], [], []⟩
  else
    let r := kMeansLoop data k rng maxIter 0 (initCentroids data k)
      (List.replicate data.length 0) (List.replicate data.length 0) 0
    ⟨r.1, r.2.1, r.2.2.map fun q => Real.sqrt (max q 0)⟩

end Regime

namespace Regime

theorem eucl_00 : euclideanSquared [(0:ℝ)] [0] = 0 := by
  simp [euclideanSquared]

theorem eucl_01 : euclideanSquared [(0:ℝ)] [1] = 1 := by
  simp [euclideanSquared]

theorem eucl_10 : euclideanSquared [(1:ℝ)] [0] = 1 := by
  simp [euclideanSquared]

theorem eucl_11 : euclideanSquared [(1:ℝ)] [1] = 0 := by
  simp [euclideanSquared]

theorem minDist_a : minDistTo [[(0:ℝ)]] [0] = 0 := by
  simp [minDistTo, eucl_00]

theorem minDist_b : minDistTo [[(0:ℝ)]] [1] = 1 := by
  simp [minDistTo, eucl_10]

theorem minDist_c : minDistTo [[(0:ℝ)], [1]] [0] = 0 := by
  simp [minDistTo, eucl_00, eucl_01]

theorem minDist_d : minDistTo [[(0:ℝ)], [1]] [1] = 0 := by
  simp [minDistTo, eucl_10, eucl_11]

end Regime

namespace Regime

theorem farthest_1 : farthestIndex [[(0:ℝ)], [0], [1]] [[0]] = 2 := by
  unfold farthestIndex
  simp [List.enum, List.enumFrom, minDist_a, minDist_b]

theorem farthest_2 : farthestIndex [[(0:ℝ)], [0], [1]] [[0], [1]] = 0 := by
  unfold farthestIndex
  simp [List.enum, List.enumFrom, minDist_c, minDist_d]

end Regime

namespace Regime

theorem initCentroids_eval :
    initCentroids [[(0:ℝ)], [0], [1]] 3 = [[0], [1], [0]] := by
  unfold initCentroids
  rw [if_neg (by simp)]
  rw [show ([[(0:ℝ)], [0], [1]].getD (([[(0:ℝ)], [0], [1]].length) / 2) []) = [0]
    from rfl]
  rw [initLoop]
  rw [if_pos (by norm_num)]
  rw [farthest_1]
  rw [show ([[(0:ℝ)]] ++ [[[(0:ℝ)], [0], [1]].getD 2 []]) = [[0], [1]] from by norm_num]
  rw [initLoop]
  rw [if_pos (by norm_num)]
  rw [farthest_2]
  rw [show ([[(0:ℝ)], [1]] ++ [[[(0:ℝ)], [0], [1]].getD 0 []]) = [[0], [1], [0]]
    from by norm_num]
  rw [initLoop]
  rw [if_neg (by norm_num)]

theorem nearest_cab_0 : nearestIndex [[(0:ℝ)], [1], [0]] [0] = (0, 0) := by
  unfold nearestIndex
  norm_num [List.enum, List.enumFrom, eucl_00, eucl_01]

theorem nearest_cab_1 : nearestIndex [[(0:ℝ)], [1], [0]] [1] = (1, 0) := by
  unfold nearestIndex
  norm_num [List.enum, List.enumFrom, eucl_10, eucl_11]

theorem nearest_cbb_0 : nearestIndex [[(0:ℝ)], [1], [1]] [0] = (0, 0) := by
  unfold nearestIndex
  norm_num [List.enum, List.enumFrom, eucl_00, eucl_01]

theorem nearest_cbb_1 : nearestIndex [[(0:ℝ)], [1], [1]] [1] = (1, 0) := by
  unfold nearestIndex
  norm_num [List.enum, List.enumFrom, eucl_10, eucl_11]

end Regime

namespace Regime

theorem meanVec_00 : meanVec [[(0:ℝ)], [0]] 1 = [0] := by
  unfold meanVec
  rw [show List.range 1 = [0] from rfl]
  norm_num

theorem meanVec_1 : meanVec [[(1:ℝ)]] 1 = [1] := by
  unfold meanVec
  rw [show List.range 1 = [0] from rfl]
  norm_num

theorem update_eval (rng : ℕ → ℕ) (t : ℕ) :
    updateCentroids [[(0:ℝ)], [0], [1]] 3 [0, 0, 1] rng t =
      ([[0], [1], [[(0:ℝ)], [0], [1]].getD (rng t % 3) []], t + 1) := by
  unfold updateCentroids
  rw [show List.range 3 = [0, 1, 2] from rfl]
  simp only [List.foldl_cons, List.foldl_nil]
  norm_num [meanVec_00, meanVec_1]

theorem kMeansLoop_succ (data : List (List ℝ)) (k : ℕ) (rng : ℕ → ℕ)
    (fuel iter : ℕ) (cents : List (List ℝ)) (asg : List ℕ) (dst : List ℝ) (t : ℕ) :
    kMeansLoop data k rng (fuel + 1) iter cents asg dst t =
      (let newAsg := data.map fun p => (nearestIndex cents p).1
       let newDst := data.map fun p => (nearestIndex cents p).2
       if newAsg = asg ∧ 1 < iter then (cents, newAsg, newDst)
       else
         let upd := updateCentroids data k newAsg rng t
         kMeansLoop data k rng fuel (iter + 1) upd.1 newAsg newDst upd.2) := rfl

theorem kMeans_eval (rng : ℕ → ℕ) (v : List ℝ)
    (hv : ∀ t, [[(0:ℝ)], [0], [1]].getD (rng t % 3) [] = v)
    (hn0 : nearestIndex [[(0:ℝ)], [1], v] [0] = (0, 0))
    (hn1 : nearestIndex [[(0:ℝ)], [1], v] [1] = (1, 0)) :
    (kMeans [[(0:ℝ)], [0], [1]] 3 60 rng).centroids = [[0], [1], v] := by
  unfold kMeans
  rw [if_neg (by simp)]
  rw [show List.replicate ([[(0:ℝ)], [0], [1]].length) (0:ℕ) = [0, 0, 0] from rfl]
  rw [show List.replicate ([[(0:ℝ)], [0], [1]].length) (0:ℝ) = [0, 0, 0] from rfl]
  rw [initCentroids_eval]
  rw [show (60:ℕ) = 59 + 1 from rfl, kMeansLoop_succ]
  simp only [List.map_cons, List.map_nil, nearest_cab_0, nearest_cab_1]
  rw [if_neg (by simp)]
  rw [update_eval rng 0, hv 0]
  rw [show (59:ℕ) = 58 + 1 from rfl, kMeansLoop_succ]
  simp only [List.map_cons, List.map_nil, hn0, hn1]
  rw [if_neg (by simp)]
  rw [update_eval rng 1, hv 1]
  rw [show (58:ℕ) = 57 + 1 from rfl, kMeansLoop_succ]
  simp only [List.map_cons, List.map_nil, hn0, hn1]
  rw [if_pos (by norm_num)]

end Regime

/-- C9 (code defect evidence): the empty-cluster reseed of `kMeans` consults
the external random source (`Math.random`, modelled as the explicit stream
`rng`). On the feature data `[[0], [0], [1]]` with `k = 3` (three distinct rule
labels but duplicate feature vectors) the third centroid duplicates an existing
one, the third cluster stays empty, the reseed is consulted, and two runs that
differ only in their random draws return different kMeans results — so the
engine's clustering step is not a deterministic function of its inputs, as the
claim requires. -/
theorem kMeans_reseed_nondeterministic :
    (Regime.kMeans [[(0:ℝ)], [0], [1]] 3 60 (fun _ => 2)).centroids ≠
      (Regime.kMeans [[(0:ℝ)], [0], [1]] 3 60 (fun _ => 0)).centroids := by
  rw [Regime.kMeans_eval (fun _ => 2) [1] (fun _ => rfl)
    Regime.nearest_cbb_0 Regime.nearest_cbb_1]
  rw [Regime.kMeans_eval (fun _ => 0) [0] (fun _ => rfl)
    Regime.nearest_cab_0 Regime.nearest_cab_1]
  simp

/-- Witness for C9's evidence theorem: both runs of `kMeans` on the concrete
input used above produce the concrete centroid lists computed in
`Regime.kMeans_eval`; stated to exercise the hypotheses of that lemma at the
two concrete random streams. -/
theorem kMeans_reseed_nondeterministic_witness :
    (Regime.kMeans [[(0:ℝ)], [0], [1]] 3 60 (fun _ => 2)).centroids = [[0], [1], [1]] ∧
    (Regime.kMeans [[(0:ℝ)], [0], [1]] 3 60 (fun _ => 0)).centroids = [[0], [1], [0]] :=
  ⟨Regime.kMeans_eval (fun _ => 2) [1] (fun _ => rfl)
      Regime.nearest_cbb_0 Regime.nearest_cbb_1,
    Regime.kMeans_eval (fun _ => 0) [0] (fun _ => rfl)
      Regime.nearest_cab_0 Regime.nearest_cab_1⟩
